import Mathlib

/-!
Verification development for the datos token layer.

Shallow embedding of the token wallet code (`src/token/wallet.cpp`,
`src/token/token.h`) and the storage node-behavior code
(`src/storage/behavior.cpp`).  Pure C++ functions become Lean functions;
the external collaborators (mempool membership, UTXO view, wallet
ownership, script-verification engine) become explicit function-valued
parameters.  Machine integers are modelled as `Nat`/`Int` with explicit
`% 2^w` at serialization boundaries.  Byte strings (`std::string`,
script bytes) are `List Nat` of byte values.

The script codec (`BuildTokenScript` / `DecodeTokenScript` /
`BuildTokenFromScript`) and the script classification predicates are
declared in `token.h` but their definitions are not part of the provided
sources; they are modelled from the spec where so marked.
-/

namespace Datos

/-- Token parameter constants from `token.h`. -/
def TOKEN_IDRANGE : Nat := 16

/-- `const int TOKEN_MINCONFS = 1;` from `token.h`. -/
def TOKEN_MINCONFS : Int := 1

/-- `const int TOKENNAME_MINLEN = 3;` from `token.h`. -/
def TOKENNAME_MINLEN : Nat := 3

/-- `const int TOKENNAME_MAXLEN = 12;` from `token.h`. -/
def TOKENNAME_MAXLEN : Nat := 12

/-- A script is a list of byte values (`CScript` payload bytes). -/
abbrev CScript := List Nat

/-- Little-endian encoding of `v` in `k` bytes (each entry taken mod 256). -/
def toLE : Nat → Nat → List Nat
  | 0, _ => []
  | k + 1, v => (v % 256) :: toLE k (v / 256)

/-- Little-endian decoding of a byte list back to a natural number. -/
def fromLE : List Nat → Nat
  | [] => 0
  | b :: rest => b + 256 * fromLE rest

theorem toLE_length (k v : Nat) : (toLE k v).length = k := by
  induction k generalizing v with
  | zero => rfl
  | succ k ih => simpa [toLE] using ih (v / 256)

theorem fromLE_toLE (k v : Nat) : fromLE (toLE k v) = v % 256 ^ k := by
  induction k generalizing v with
  | zero => simp [toLE, fromLE, Nat.mod_one]
  | succ k ih =>
      calc fromLE (toLE (k + 1) v)
          = v % 256 + 256 * (v / 256 % 256 ^ k) := by simp [toLE, fromLE, ih]
        _ = v % 256 ^ (k + 1) := by
            rw [pow_succ, mul_comm (256 ^ k) 256, Nat.mod_mul]

/-- Modelled from the spec: the exact tag bytes distinguishing token,
checksum and plain scripts are left open by the spec ("the implementer
must define distinct, non-colliding tag prefixes"); we fix one byte for
each, distinct from each other. -/
def tokenTag : List Nat := [209]

/-- Modelled from the spec: the checksum-script tag prefix, distinct from
`tokenTag`. -/
def checksumTag : List Nat := [210]

/-- Modelled from the spec: `CScript::IsPayToToken` — the script carries
the token tag prefix. The implementation is not in the provided sources. -/
def isPayToToken (s : CScript) : Bool := tokenTag.isPrefixOf s

/-- Modelled from the spec: `CScript::IsChecksumData` — the script carries
the checksum tag prefix. The implementation is not in the provided sources. -/
def isChecksumData (s : CScript) : Bool := checksumTag.isPrefixOf s

/-- `CToken` from `token.h`: version, type, uid, name, origin transaction
hash (the 256-bit hash is modelled as a `Nat`). -/
structure CToken where
  version : Nat
  type : Nat
  uid : Nat
  name : List Nat
  origintx : Nat
deriving DecidableEq, Repr

/-- `CToken::CURRENT_VERSION = 0x01`. -/
def CToken.CURRENT_VERSION : Nat := 1

/-- Token type enum value `NONE` from `token.h`. -/
def CToken.NONE : Nat := 0

/-- Token type enum value `ISSUANCE` from `token.h`. -/
def CToken.ISSUANCE : Nat := 1

/-- Token type enum value `TRANSFER` from `token.h`. -/
def CToken.TRANSFER : Nat := 2

/-- `CToken::operator==` from `token.h` lines 86-89: compares `uid` and
`name` only. -/
def tokenEq (a b : CToken) : Bool := a.uid == b.uid && a.name == b.name

/-- Modelled from the spec: `BuildTokenScript` serializes
`version, type, uid, name` (name length-prefixed) behind the token tag,
followed by the backing owner script; the implementation is not in the
provided sources (only declared in `token.h`). -/
def buildTokenScript (version type uid : Nat) (name : List Nat) (owner : CScript) :
    CScript :=
  tokenTag ++ [version % 256] ++ toLE 2 type ++ toLE 8 uid ++
    [name.length % 256] ++ name ++ owner

/-- Modelled from the spec: `DecodeTokenScript` parses a token script back
into `(version, type, uid, name, ownerScript)`; returns `none` both for
scripts without the token tag and for tag-matching scripts whose internal
structure is too short. The implementation is not in the provided sources. -/
def decodeTokenScript (s : CScript) : Option (Nat × Nat × Nat × List Nat × CScript) :=
  if tokenTag.isPrefixOf s then
    match s.drop tokenTag.length with
    | v :: t0 :: t1 :: u0 :: u1 :: u2 :: u3 :: u4 :: u5 :: u6 :: u7 :: len :: rest =>
        if len ≤ rest.length then
          some (v, fromLE [t0, t1], fromLE [u0, u1, u2, u3, u4, u5, u6, u7],
            rest.take len, rest.drop len)
        else none
    | _ => none
  else none

/-- Modelled from the spec: `BuildTokenFromScript` composes the decoder
into a `CToken` value (origin hash left at its default). -/
def buildTokenFromScript (s : CScript) : Option CToken :=
  match decodeTokenScript s with
  | none => none
  | some (v, t, u, nm, _) => some ⟨v, t, u, nm, 0⟩

theorem decode_buildTokenScript (version type uid : Nat) (name : List Nat)
    (owner : CScript) (hv : version < 256) (ht : type < 65536)
    (hu : uid < 2 ^ 64) (hmin : TOKENNAME_MINLEN ≤ name.length)
    (hmax : name.length ≤ TOKENNAME_MAXLEN) :
    decodeTokenScript (buildTokenScript version type uid name owner) =
      some (version, type, uid, name, owner) := by
  have hpre : tokenTag.isPrefixOf (buildTokenScript version type uid name owner) = true := by
    rw [List.isPrefixOf_iff_prefix]
    exact ⟨[version % 256] ++ toLE 2 type ++ toLE 8 uid ++
      [name.length % 256] ++ name ++ owner, by simp [buildTokenScript]⟩
  have hdrop :
      (buildTokenScript version type uid name owner).drop tokenTag.length =
        version % 256 :: (toLE 2 type ++ toLE 8 uid ++
          [name.length % 256] ++ name ++ owner) := by
    simp [buildTokenScript, tokenTag]
  have hlen256 : name.length % 256 = name.length :=
    Nat.mod_eq_of_lt (lt_of_le_of_lt hmax (by norm_num [TOKENNAME_MAXLEN]))
  rw [decodeTokenScript, hpre, if_pos rfl, hdrop]
  simp only [toLE, List.cons_append, List.nil_append, List.append_assoc]
  rw [if_pos (by simpa [hlen256] using Nat.le_add_right name.length owner.length)]
  have hv' : version % 256 = version := Nat.mod_eq_of_lt hv
  have ht2 : fromLE (toLE 2 type) = type := by
    rw [fromLE_toLE]; exact Nat.mod_eq_of_lt (by norm_num at ht ⊢; omega)
  have hu8 : fromLE (toLE 8 uid) = uid := by
    rw [fromLE_toLE]; exact Nat.mod_eq_of_lt (by norm_num at hu ⊢; omega)
  have ht2' : fromLE [type % 256, type / 256 % 256] = type := by
    simpa [toLE] using ht2
  have hu8' : fromLE [uid % 256, uid / 256 % 256, uid / 256 / 256 % 256,
      uid / 256 / 256 / 256 % 256, uid / 256 / 256 / 256 / 256 % 256,
      uid / 256 / 256 / 256 / 256 / 256 % 256,
      uid / 256 / 256 / 256 / 256 / 256 / 256 % 256,
      uid / 256 / 256 / 256 / 256 / 256 / 256 / 256 % 256] = uid := by
    simpa [toLE] using hu8
  simp [hv', ht2', hu8', hlen256, List.take_left, List.drop_left]

/-- `COutPoint`: transaction hash (256-bit hash modelled as `Nat`) and
output index. -/
structure COutPoint where
  hash : Nat
  n : Nat
deriving DecidableEq, Repr

/-- `CTxIn`, reduced to the previous outpoint (the only field the funding
code sets). -/
structure CTxIn where
  prevout : COutPoint
deriving DecidableEq, Repr

/-- `CTxOut`: value and script. -/
structure CTxOut where
  nValue : Int
  scriptPubKey : CScript
deriving DecidableEq, Repr

/-- A wallet transaction: its hash and its outputs. -/
structure CWalletTx where
  txHash : Nat
  vout : List CTxOut
deriving DecidableEq, Repr

/-- Modelled from the spec: `CTxOut::IsTokenOutput` — the output's script
is a pay-to-token script. The implementation is not in the provided
sources. -/
def isTokenOutput (out : CTxOut) : Bool := isPayToToken out.scriptPubKey

/-- The external wallet/chain collaborators consulted by the funding loops
in `wallet.cpp` (`IsInMempool`, `IsOutputUnspent`, `IsMine`,
`GetUTXOConfirmations`, `IsOutputInMempool`), modelled as an explicit
environment of functions. -/
structure WalletEnv where
  isInMempool : Nat → Bool
  isOutputUnspent : COutPoint → Bool
  isMine : CTxOut → Bool
  getUTXOConfirmations : COutPoint → Int
  isOutputInMempool : COutPoint → Bool

/-- Inner per-output loop of `CWallet::FundMintTransaction`
(`wallet.cpp` lines 29-57), mirrored test by test. State: running
`amountFound` and selected inputs `ret`; result flag `true` means early
return with success. -/
def fundMintOuts (env : WalletEnv) (amountMin : Int) (txHash : Nat) :
    List (Nat × CTxOut) → Int → List CTxIn → Bool × Int × List CTxIn
  | [], amountFound, ret => (false, amountFound, ret)
  | (n, out) :: rest, amountFound, ret =>
      if env.isInMempool txHash then
        fundMintOuts env amountMin txHash rest amountFound ret
      else if !env.isOutputUnspent ⟨txHash, n⟩ then
        fundMintOuts env amountMin txHash rest amountFound ret
      else if !env.isMine out then
        fundMintOuts env amountMin txHash rest amountFound ret
      else if env.getUTXOConfirmations ⟨txHash, n⟩ < TOKEN_MINCONFS + 1 then
        fundMintOuts env amountMin txHash rest amountFound ret
      else if env.isOutputInMempool ⟨txHash, n⟩ then
        fundMintOuts env amountMin txHash rest amountFound ret
      else if !isPayToToken out.scriptPubKey && !isChecksumData out.scriptPubKey then
        let amountFound' := amountFound + out.nValue
        let ret' := ret ++ [⟨⟨txHash, n⟩⟩]
        if amountMin ≤ amountFound' then (true, amountFound', ret')
        else fundMintOuts env amountMin txHash rest amountFound' ret'
      else
        fundMintOuts env amountMin txHash rest amountFound ret

/-- Outer loop of `CWallet::FundMintTransaction` over the spendable wallet
transactions. -/
def fundMintTxs (env : WalletEnv) (amountMin : Int) :
    List CWalletTx → Int → List CTxIn → Bool × Int × List CTxIn
  | [], amountFound, ret => (false, amountFound, ret)
  | tx :: rest, amountFound, ret =>
      match fundMintOuts env amountMin tx.txHash tx.vout.enum amountFound ret with
      | (true, a, r) => (true, a, r)
      | (false, a, r) => fundMintTxs env amountMin rest a r

/-- `CWallet::FundMintTransaction` (`wallet.cpp` lines 16-60): greedy pass
over the spendable transactions (given as a list in enumeration order),
starting from `amountFound = 0` and an empty selection. -/
def fundMintTransaction (env : WalletEnv) (txs : List CWalletTx) (amountMin : Int) :
    Bool × Int × List CTxIn :=
  fundMintTxs env amountMin txs 0 []

/-- Funding eligibility of one output in `FundMintTransaction`: the
conjunction of the skip tests of the loop body (an output is eligible iff
no `continue` fires and the accumulate branch is taken). -/
def eligibleMint (env : WalletEnv) (txHash n : Nat) (out : CTxOut) : Bool :=
  !env.isInMempool txHash && env.isOutputUnspent ⟨txHash, n⟩ && env.isMine out &&
    !(env.getUTXOConfirmations ⟨txHash, n⟩ < TOKEN_MINCONFS + 1) &&
    !env.isOutputInMempool ⟨txHash, n⟩ &&
    (!isPayToToken out.scriptPubKey && !isChecksumData out.scriptPubKey)

/-- The eligible outputs of one wallet transaction for mint funding, in
output order, as (outpoint, value) pairs. -/
def eligibleMintOuts (env : WalletEnv) (tx : CWalletTx) : List (COutPoint × Int) :=
  tx.vout.enum.filterMap fun p =>
    if eligibleMint env tx.txHash p.1 p.2 then some (⟨tx.txHash, p.1⟩, p.2.nValue) else none

/-- All mint-eligible outputs of the wallet in enumeration order. -/
def flatEligibleMint (env : WalletEnv) (txs : List CWalletTx) : List (COutPoint × Int) :=
  txs.flatMap (eligibleMintOuts env)

/-- Reference greedy accumulator over a list of (outpoint, value)
candidates: push each candidate, succeed as soon as the running total
reaches the target. -/
def greedy (amountMin : Int) : List (COutPoint × Int) → Int → List CTxIn → Bool × Int × List CTxIn
  | [], acc, sel => (false, acc, sel)
  | (p, v) :: rest, acc, sel =>
      if amountMin ≤ acc + v then (true, acc + v, sel ++ [⟨p⟩])
      else greedy amountMin rest (acc + v) (sel ++ [⟨p⟩])

/-- Sum of the candidate values of a selection list. -/
def selValues (l : List (COutPoint × Int)) : Int := (l.map Prod.snd).sum

/-- The inputs corresponding to a selection list. -/
def selInputs (l : List (COutPoint × Int)) : List CTxIn := l.map fun pv => ⟨pv.1⟩

theorem selValues_cons (pv : COutPoint × Int) (l : List (COutPoint × Int)) :
    selValues (pv :: l) = pv.2 + selValues l := by
  simp [selValues]

theorem fundMintOuts_cons (env : WalletEnv) (m : Int) (txHash n : Nat) (out : CTxOut)
    (rest : List (Nat × CTxOut)) (acc : Int) (sel : List CTxIn) :
    fundMintOuts env m txHash ((n, out) :: rest) acc sel =
      if eligibleMint env txHash n out then
        (if m ≤ acc + out.nValue then
          (true, acc + out.nValue, sel ++ [⟨⟨txHash, n⟩⟩])
        else fundMintOuts env m txHash rest (acc + out.nValue) (sel ++ [⟨⟨txHash, n⟩⟩]))
      else fundMintOuts env m txHash rest acc sel := by
  by_cases h1 : env.isInMempool txHash = true <;>
  by_cases h2 : env.isOutputUnspent ⟨txHash, n⟩ = true <;>
  by_cases h3 : env.isMine out = true <;>
  by_cases h4 : env.getUTXOConfirmations ⟨txHash, n⟩ < TOKEN_MINCONFS + 1 <;>
  by_cases h5 : env.isOutputInMempool ⟨txHash, n⟩ = true <;>
  by_cases h6 : isPayToToken out.scriptPubKey = true <;>
  by_cases h7 : isChecksumData out.scriptPubKey = true <;>
    simp [fundMintOuts, eligibleMint, h1, h2, h3, h4, h5, h6, h7]

theorem fundMintOuts_eq_greedy (env : WalletEnv) (m : Int) (txHash : Nat) :
    ∀ (outs : List (Nat × CTxOut)) (acc : Int) (sel : List CTxIn),
      fundMintOuts env m txHash outs acc sel =
        greedy m (outs.filterMap fun p =>
          if eligibleMint env txHash p.1 p.2 then
            some (⟨txHash, p.1⟩, p.2.nValue) else none) acc sel
  | [], _, _ => rfl
  | (n, out) :: rest, acc, sel => by
      have ih := fundMintOuts_eq_greedy env m txHash rest
      rw [fundMintOuts_cons, List.filterMap_cons]
      by_cases helig : eligibleMint env txHash n out = true
      · simp only [helig, if_true, if_pos]
        by_cases hge : m ≤ acc + out.nValue <;>
          simp [greedy, hge, ih]
      · simp only [Bool.not_eq_true] at helig
        simp [helig, ih]

theorem greedy_append (m : Int) :
    ∀ (l1 l2 : List (COutPoint × Int)) (acc : Int) (sel : List CTxIn),
      greedy m (l1 ++ l2) acc sel =
        match greedy m l1 acc sel with
        | (true, a, r) => (true, a, r)
        | (false, a, r) => greedy m l2 a r
  | [], _, _, _ => by simp [greedy]
  | (p, v) :: rest, l2, acc, sel => by
      by_cases h : m ≤ acc + v <;>
        simp [greedy, h, greedy_append m rest l2]

theorem fundMintTxs_eq_greedy (env : WalletEnv) (m : Int) :
    ∀ (txs : List CWalletTx) (acc : Int) (sel : List CTxIn),
      fundMintTxs env m txs acc sel =
        greedy m (flatEligibleMint env txs) acc sel
  | [], _, _ => rfl
  | tx :: rest, acc, sel => by
      rw [fundMintTxs, fundMintOuts_eq_greedy env m tx.txHash tx.vout.enum acc sel]
      have hflat : flatEligibleMint env (tx :: rest) =
          eligibleMintOuts env tx ++ flatEligibleMint env rest := by
        simp [flatEligibleMint]
      rw [hflat, greedy_append m (eligibleMintOuts env tx) (flatEligibleMint env rest) acc sel]
      have helig : (tx.vout.enum.filterMap fun p =>
          if eligibleMint env tx.txHash p.1 p.2 then
            some (⟨tx.txHash, p.1⟩, p.2.nValue) else none) = eligibleMintOuts env tx := rfl
      rw [helig]
      rcases hg : greedy m (eligibleMintOuts env tx) acc sel with ⟨b, a, r⟩
      cases b <;> simp [fundMintTxs_eq_greedy env m rest]

theorem greedy_success_ge (m : Int) :
    ∀ (l : List (COutPoint × Int)) (acc : Int) (sel : List CTxIn),
      (greedy m l acc sel).1 = true → m ≤ (greedy m l acc sel).2.1
  | [], _, _ => by simp [greedy]
  | (p, v) :: rest, acc, sel => by
      by_cases h : m ≤ acc + v
      · simp [greedy, h]
      · simp only [greedy, if_neg h]
        exact greedy_success_ge m rest (acc + v) (sel ++ [⟨p⟩])

theorem greedy_exhausted (m : Int) :
    ∀ (l : List (COutPoint × Int)) (acc : Int) (sel : List CTxIn),
      (∀ pv ∈ l, 0 ≤ pv.2) → acc + selValues l < m →
      (greedy m l acc sel).1 = false
  | [], _, _ => by simp [greedy]
  | (p, v) :: rest, acc, sel => by
      intro hnn hlt
      have hrest : ∀ pv ∈ rest, 0 ≤ pv.2 := fun pv hpv => hnn pv (List.mem_cons_of_mem _ hpv)
      have hsum : 0 ≤ selValues rest :=
        List.sum_nonneg (by
          intro x hx
          rcases List.mem_map.mp hx with ⟨pv, hpv, rfl⟩
          exact hrest pv hpv)
      rw [selValues_cons] at hlt
      have hv : acc + v < m := by linarith
      have : ¬ m ≤ acc + v := by linarith
      simp only [greedy, if_neg this]
      exact greedy_exhausted m rest (acc + v) (sel ++ [⟨p⟩]) hrest (by linarith)

theorem greedy_success_prefix (m : Int) :
    ∀ (l : List (COutPoint × Int)) (acc : Int) (sel : List CTxIn),
      (greedy m l acc sel).1 = true →
      ∃ k, 0 < k ∧ k ≤ l.length ∧
        (greedy m l acc sel).2.2 = sel ++ selInputs (l.take k) ∧
        (greedy m l acc sel).2.1 = acc + selValues (l.take k) ∧
        m ≤ acc + selValues (l.take k) ∧
        ∀ j, 0 < j → j < k → acc + selValues (l.take j) < m
  | [], _, _ => by simp [greedy]
  | (p, v) :: rest, acc, sel => by
      intro hok
      by_cases h : m ≤ acc + v
      · refine ⟨1, by norm_num, by simp, ?_, ?_, ?_, ?_⟩
        · simp [greedy, h, selInputs]
        · simp [greedy, h, selValues]
        · simpa [selValues] using h
        · intro j hj1 hj2; omega
      · have hok' : (greedy m rest (acc + v) (sel ++ [⟨p⟩])).1 = true := by
          simpa [greedy, h] using hok
        rcases greedy_success_prefix m rest (acc + v) (sel ++ [⟨p⟩]) hok' with
          ⟨k, hk0, hklen, hsel, hval, hge, hmin⟩
        refine ⟨k + 1, by omega, by simpa using Nat.succ_le_succ hklen, ?_, ?_, ?_, ?_⟩
        · simpa [greedy, h, selInputs, add_assoc] using hsel
        · simpa [greedy, h, selValues_cons, add_assoc] using hval
        · simpa [selValues_cons, add_assoc] using hge
        · intro j hj1 hj2
          match j, hj1 with
          | jj + 1, _ =>
            rw [List.take_succ_cons, selValues_cons]
            rcases Nat.eq_zero_or_pos jj with hz | hpos
            · subst hz
              simpa [selValues] using lt_of_not_le h
            · have := hmin jj hpos (by omega)
              linarith

/-- Inner per-output loop of `CWallet::FundTokenTransaction`
(`wallet.cpp` lines 75-119), mirrored test by test; an output whose
script fails to decode as a token is skipped (`continue`). -/
def fundTokenOuts (env : WalletEnv) (tokenname : List Nat) (amountMin : Int) (txHash : Nat) :
    List (Nat × CTxOut) → Int → List CTxIn → Bool × Int × List CTxIn
  | [], amountFound, ret => (false, amountFound, ret)
  | (n, out) :: rest, amountFound, ret =>
      if !isTokenOutput out then
        fundTokenOuts env tokenname amountMin txHash rest amountFound ret
      else if env.isInMempool txHash then
        fundTokenOuts env tokenname amountMin txHash rest amountFound ret
      else if !env.isOutputUnspent ⟨txHash, n⟩ then
        fundTokenOuts env tokenname amountMin txHash rest amountFound ret
      else if !env.isMine out then
        fundTokenOuts env tokenname amountMin txHash rest amountFound ret
      else if env.getUTXOConfirmations ⟨txHash, n⟩ < TOKEN_MINCONFS + 1 then
        fundTokenOuts env tokenname amountMin txHash rest amountFound ret
      else if env.isOutputInMempool ⟨txHash, n⟩ then
        fundTokenOuts env tokenname amountMin txHash rest amountFound ret
      else if !isChecksumData out.scriptPubKey then
        match buildTokenFromScript out.scriptPubKey with
        | none => fundTokenOuts env tokenname amountMin txHash rest amountFound ret
        | some token =>
            if tokenname == token.name then
              let amountFound' := amountFound + out.nValue
              let ret' := ret ++ [⟨⟨txHash, n⟩⟩]
              if amountMin ≤ amountFound' then (true, amountFound', ret')
              else fundTokenOuts env tokenname amountMin txHash rest amountFound' ret'
            else fundTokenOuts env tokenname amountMin txHash rest amountFound ret
      else
        fundTokenOuts env tokenname amountMin txHash rest amountFound ret

/-- Outer loop of `CWallet::FundTokenTransaction` over the wallet map. -/
def fundTokenTxs (env : WalletEnv) (tokenname : List Nat) (amountMin : Int) :
    List CWalletTx → Int → List CTxIn → Bool × Int × List CTxIn
  | [], amountFound, ret => (false, amountFound, ret)
  | tx :: rest, amountFound, ret =>
      match fundTokenOuts env tokenname amountMin tx.txHash tx.vout.enum amountFound ret with
      | (true, a, r) => (true, a, r)
      | (false, a, r) => fundTokenTxs env tokenname amountMin rest a r

/-- `CWallet::FundTokenTransaction` (`wallet.cpp` lines 62-122). -/
def fundTokenTransaction (env : WalletEnv) (txs : List CWalletTx) (tokenname : List Nat)
    (amountMin : Int) : Bool × Int × List CTxIn :=
  fundTokenTxs env tokenname amountMin txs 0 []

/-- Funding eligibility of one output in `FundTokenTransaction`: no skip
test fires and the script decodes to a token whose name matches. -/
def eligibleToken (env : WalletEnv) (tokenname : List Nat) (txHash n : Nat)
    (out : CTxOut) : Bool :=
  isTokenOutput out && !env.isInMempool txHash && env.isOutputUnspent ⟨txHash, n⟩ &&
    env.isMine out && !(env.getUTXOConfirmations ⟨txHash, n⟩ < TOKEN_MINCONFS + 1) &&
    !env.isOutputInMempool ⟨txHash, n⟩ && !isChecksumData out.scriptPubKey &&
    (match buildTokenFromScript out.scriptPubKey with
     | none => false
     | some token => tokenname == token.name)

/-- The token-eligible outputs of one wallet transaction, in output order. -/
def eligibleTokenOuts (env : WalletEnv) (tokenname : List Nat) (tx : CWalletTx) :
    List (COutPoint × Int) :=
  tx.vout.enum.filterMap fun p =>
    if eligibleToken env tokenname tx.txHash p.1 p.2 then
      some (⟨tx.txHash, p.1⟩, p.2.nValue) else none

/-- All token-eligible outputs of the wallet in enumeration order. -/
def flatEligibleToken (env : WalletEnv) (tokenname : List Nat) (txs : List CWalletTx) :
    List (COutPoint × Int) :=
  txs.flatMap (eligibleTokenOuts env tokenname)

theorem fundTokenOuts_cons (env : WalletEnv) (tokenname : List Nat) (m : Int)
    (txHash n : Nat) (out : CTxOut) (rest : List (Nat × CTxOut)) (acc : Int)
    (sel : List CTxIn) :
    fundTokenOuts env tokenname m txHash ((n, out) :: rest) acc sel =
      if eligibleToken env tokenname txHash n out then
        (if m ≤ acc + out.nValue then
          (true, acc + out.nValue, sel ++ [⟨⟨txHash, n⟩⟩])
        else fundTokenOuts env tokenname m txHash rest (acc + out.nValue)
          (sel ++ [⟨⟨txHash, n⟩⟩]))
      else fundTokenOuts env tokenname m txHash rest acc sel := by
  cases hdec : buildTokenFromScript out.scriptPubKey with
  | none =>
      by_cases h0 : isTokenOutput out = true <;>
      by_cases h1 : env.isInMempool txHash = true <;>
      by_cases h2 : env.isOutputUnspent ⟨txHash, n⟩ = true <;>
      by_cases h3 : env.isMine out = true <;>
      by_cases h4 : env.getUTXOConfirmations ⟨txHash, n⟩ < TOKEN_MINCONFS + 1 <;>
      by_cases h5 : env.isOutputInMempool ⟨txHash, n⟩ = true <;>
      by_cases h7 : isChecksumData out.scriptPubKey = true <;>
        simp [fundTokenOuts, eligibleToken, hdec, h0, h1, h2, h3, h4, h5, h7]
  | some token =>
      by_cases hnm : (tokenname == token.name) = true <;>
      by_cases h0 : isTokenOutput out = true <;>
      by_cases h1 : env.isInMempool txHash = true <;>
      by_cases h2 : env.isOutputUnspent ⟨txHash, n⟩ = true <;>
      by_cases h3 : env.isMine out = true <;>
      by_cases h4 : env.getUTXOConfirmations ⟨txHash, n⟩ < TOKEN_MINCONFS + 1 <;>
      by_cases h5 : env.isOutputInMempool ⟨txHash, n⟩ = true <;>
      by_cases h7 : isChecksumData out.scriptPubKey = true <;>
        simp [fundTokenOuts, eligibleToken, hdec, hnm, h0, h1, h2, h3, h4, h5, h7]

theorem fundTokenOuts_eq_greedy (env : WalletEnv) (tokenname : List Nat) (m : Int)
    (txHash : Nat) :
    ∀ (outs : List (Nat × CTxOut)) (acc : Int) (sel : List CTxIn),
      fundTokenOuts env tokenname m txHash outs acc sel =
        greedy m (outs.filterMap fun p =>
          if eligibleToken env tokenname txHash p.1 p.2 then
            some (⟨txHash, p.1⟩, p.2.nValue) else none) acc sel
  | [], _, _ => rfl
  | (n, out) :: rest, acc, sel => by
      have ih := fundTokenOuts_eq_greedy env tokenname m txHash rest
      rw [fundTokenOuts_cons, List.filterMap_cons]
      by_cases helig : eligibleToken env tokenname txHash n out = true
      · simp only [helig, if_true, if_pos]
        by_cases hge : m ≤ acc + out.nValue <;>
          simp [greedy, hge, ih]
      · simp only [Bool.not_eq_true] at helig
        simp [helig, ih]

theorem fundTokenTxs_eq_greedy (env : WalletEnv) (tokenname : List Nat) (m : Int) :
    ∀ (txs : List CWalletTx) (acc : Int) (sel : List CTxIn),
      fundTokenTxs env tokenname m txs acc sel =
        greedy m (flatEligibleToken env tokenname txs) acc sel
  | [], _, _ => rfl
  | tx :: rest, acc, sel => by
      rw [fundTokenTxs, fundTokenOuts_eq_greedy env tokenname m tx.txHash tx.vout.enum acc sel]
      have hflat : flatEligibleToken env tokenname (tx :: rest) =
          eligibleTokenOuts env tokenname tx ++ flatEligibleToken env tokenname rest := by
        simp [flatEligibleToken]
      rw [hflat,
        greedy_append m (eligibleTokenOuts env tokenname tx)
          (flatEligibleToken env tokenname rest) acc sel]
      have helig : (tx.vout.enum.filterMap fun p =>
          if eligibleToken env tokenname tx.txHash p.1 p.2 then
            some (⟨tx.txHash, p.1⟩, p.2.nValue) else none) =
          eligibleTokenOuts env tokenname tx := rfl
      rw [helig]
      rcases hg : greedy m (eligibleTokenOuts env tokenname tx) acc sel with ⟨b, a, r⟩
      cases b <;> simp [fundTokenTxs_eq_greedy env tokenname m rest]

theorem greedy_sel_mem (m : Int) :
    ∀ (l : List (COutPoint × Int)) (acc : Int) (sel : List CTxIn) (txin : CTxIn),
      txin ∈ (greedy m l acc sel).2.2 → txin ∈ sel ∨ ∃ pv ∈ l, txin = ⟨pv.1⟩
  | [], _, _, _ => by
      intro h
      exact Or.inl (by simpa [greedy] using h)
  | (p, v) :: rest, acc, sel, txin => by
      intro h
      by_cases hge : m ≤ acc + v
      · simp only [greedy, if_pos hge] at h
        rcases List.mem_append.mp h with hs | hp
        · exact Or.inl hs
        · exact Or.inr ⟨(p, v), List.mem_cons_self _ _, by simpa using hp⟩
      · simp only [greedy, if_neg hge] at h
        rcases greedy_sel_mem m rest (acc + v) (sel ++ [⟨p⟩]) txin h with hs | ⟨pv, hpv, rfl⟩
        · rcases List.mem_append.mp hs with hs2 | hp
          · exact Or.inl hs2
          · exact Or.inr ⟨(p, v), List.mem_cons_self _ _, by simpa using hp⟩
        · exact Or.inr ⟨pv, List.mem_cons_of_mem _ hpv, rfl⟩

/-- The name "GOLD" as a byte string. -/
def goldName : List Nat := [71, 79, 76, 68]

/-- A concrete wallet environment for witnesses: nothing in the mempool,
everything unspent and owned, 5 confirmations everywhere. -/
def envA : WalletEnv :=
  { isInMempool := fun _ => false
    isOutputUnspent := fun _ => true
    isMine := fun _ => true
    getUTXOConfirmations := fun _ => 5
    isOutputInMempool := fun _ => false }

/-- A concrete wallet for the mint-funding witness: one transaction with
two plain outputs worth 60 and 50. -/
def txsA : List CWalletTx := [⟨1, [⟨60, []⟩, ⟨50, []⟩]⟩]

/-- C2: `FundMintTransaction` returns success only if the accumulated value
of the selected inputs reaches the target; on success the selection is the
shortest checked prefix of the eligible outputs in enumeration order
(first-fit); if the eligible candidates are exhausted with total below the
target it returns failure. Output values are assumed nonnegative (coin
amounts). -/
theorem C2_fundMintTransaction_firstFit (env : WalletEnv) (txs : List CWalletTx) (m : Int)
    (hnn : ∀ pv ∈ flatEligibleMint env txs, 0 ≤ pv.2) :
    ((fundMintTransaction env txs m).1 = true →
        m ≤ (fundMintTransaction env txs m).2.1 ∧
        ∃ k, 0 < k ∧ k ≤ (flatEligibleMint env txs).length ∧
          (fundMintTransaction env txs m).2.2 =
            selInputs ((flatEligibleMint env txs).take k) ∧
          (fundMintTransaction env txs m).2.1 =
            selValues ((flatEligibleMint env txs).take k) ∧
          ∀ j, 0 < j → j < k → selValues ((flatEligibleMint env txs).take j) < m) ∧
      (selValues (flatEligibleMint env txs) < m →
        (fundMintTransaction env txs m).1 = false) := by
  have heq : fundMintTransaction env txs m = greedy m (flatEligibleMint env txs) 0 [] :=
    fundMintTxs_eq_greedy env m txs 0 []
  constructor
  · intro hok
    rw [heq] at hok ⊢
    refine ⟨greedy_success_ge m _ 0 [] hok, ?_⟩
    rcases greedy_success_prefix m (flatEligibleMint env txs) 0 [] hok with
      ⟨k, hk0, hklen, hsel, hval, _, hmin⟩
    exact ⟨k, hk0, hklen, by simpa using hsel, by simpa using hval,
      fun j hj0 hjk => by simpa using hmin j hj0 hjk⟩
  · intro hlt
    rw [heq]
    exact greedy_exhausted m _ 0 [] hnn (by simpa using hlt)

theorem C2_witness :
    (∀ pv ∈ flatEligibleMint envA txsA, 0 ≤ pv.2) ∧
    (((fundMintTransaction envA txsA 100).1 = true →
        100 ≤ (fundMintTransaction envA txsA 100).2.1 ∧
        ∃ k, 0 < k ∧ k ≤ (flatEligibleMint envA txsA).length ∧
          (fundMintTransaction envA txsA 100).2.2 =
            selInputs ((flatEligibleMint envA txsA).take k) ∧
          (fundMintTransaction envA txsA 100).2.1 =
            selValues ((flatEligibleMint envA txsA).take k) ∧
          ∀ j, 0 < j → j < k →
            selValues ((flatEligibleMint envA txsA).take j) < 100) ∧
      (selValues (flatEligibleMint envA txsA) < 100 →
        (fundMintTransaction envA txsA 100).1 = false)) :=
  ⟨by decide, C2_fundMintTransaction_firstFit envA txsA 100 (by decide)⟩

/-- C3: in both funding filters, an output with exactly `TOKEN_MINCONFS`
confirmations is excluded; one with `TOKEN_MINCONFS + 1` confirmations is
included when every other filter condition is satisfied. -/
theorem C3_confirmation_boundary (env : WalletEnv) :
    (∀ txHash n out, env.getUTXOConfirmations ⟨txHash, n⟩ = TOKEN_MINCONFS →
        eligibleMint env txHash n out = false) ∧
    (∀ tokenname txHash n out,
        env.getUTXOConfirmations ⟨txHash, n⟩ = TOKEN_MINCONFS →
        eligibleToken env tokenname txHash n out = false) ∧
    (∀ txHash n out,
        env.getUTXOConfirmations ⟨txHash, n⟩ = TOKEN_MINCONFS + 1 →
        env.isInMempool txHash = false →
        env.isOutputUnspent ⟨txHash, n⟩ = true →
        env.isMine out = true →
        env.isOutputInMempool ⟨txHash, n⟩ = false →
        isPayToToken out.scriptPubKey = false →
        isChecksumData out.scriptPubKey = false →
        eligibleMint env txHash n out = true) ∧
    (∀ tokenname token txHash n out,
        env.getUTXOConfirmations ⟨txHash, n⟩ = TOKEN_MINCONFS + 1 →
        env.isInMempool txHash = false →
        env.isOutputUnspent ⟨txHash, n⟩ = true →
        env.isMine out = true →
        env.isOutputInMempool ⟨txHash, n⟩ = false →
        isTokenOutput out = true →
        isChecksumData out.scriptPubKey = false →
        buildTokenFromScript out.scriptPubKey = some token →
        tokenname = token.name →
        eligibleToken env tokenname txHash n out = true) := by
  refine ⟨?_, ?_, ?_, ?_⟩
  · intro txHash n out h
    simp [eligibleMint, h, TOKEN_MINCONFS]
  · intro tokenname txHash n out h
    simp [eligibleToken, h, TOKEN_MINCONFS]
  · intro txHash n out hconf h1 h2 h3 h5 h6 h7
    simp [eligibleMint, hconf, h1, h2, h3, h5, h6, h7, TOKEN_MINCONFS]
  · intro tokenname token txHash n out hconf h1 h2 h3 h5 h0 h7 hdec hnm
    simp [eligibleToken, hconf, h1, h2, h3, h5, h0, h7, hdec, hnm, TOKEN_MINCONFS]

/-- A wallet environment for the boundary witness: outputs at index 0 have
exactly `TOKEN_MINCONFS` confirmations, others `TOKEN_MINCONFS + 1`. -/
def envB : WalletEnv :=
  { isInMempool := fun _ => false
    isOutputUnspent := fun _ => true
    isMine := fun _ => true
    getUTXOConfirmations := fun p => if p.n = 0 then TOKEN_MINCONFS else TOKEN_MINCONFS + 1
    isOutputInMempool := fun _ => false }

/-- A concrete plain (non-token, non-checksum) output. -/
def outPlain : CTxOut := ⟨7, []⟩

/-- A concrete GOLD token script. -/
def gScript : CScript := buildTokenScript 1 CToken.TRANSFER 42 goldName []

/-- A concrete GOLD token output. -/
def outTok : CTxOut := ⟨5, gScript⟩

/-- The token record carried by `gScript`. -/
def tokenG : CToken := ⟨1, CToken.TRANSFER, 42, goldName, 0⟩

theorem C3_witness :
    envB.getUTXOConfirmations ⟨1, 0⟩ = TOKEN_MINCONFS ∧
    eligibleMint envB 1 0 outPlain = false ∧
    eligibleToken envB goldName 1 0 outTok = false ∧
    eligibleMint envB 1 1 outPlain = true ∧
    eligibleToken envB goldName 1 1 outTok = true :=
  ⟨by decide,
   (C3_confirmation_boundary envB).1 1 0 outPlain (by decide),
   (C3_confirmation_boundary envB).2.1 goldName 1 0 outTok (by decide),
   (C3_confirmation_boundary envB).2.2.1 1 1 outPlain (by decide) (by decide) (by decide)
     (by decide) (by decide) (by decide) (by decide),
   (C3_confirmation_boundary envB).2.2.2 goldName tokenG 1 1 outTok (by decide) (by decide)
     (by decide) (by decide) (by decide) (by decide) (by decide) (by decide) (by decide)⟩

/-- C6: every input selected by `FundTokenTransaction` references a wallet
output whose script decodes to a token with the requested name, and an
output whose script fails to decode as a token is skipped by the loop
without affecting the result (no error is signalled). -/
theorem C6_fundTokenTransaction_name_match (env : WalletEnv) (txs : List CWalletTx)
    (tokenname : List Nat) (m : Int) :
    (∀ txin ∈ (fundTokenTransaction env txs tokenname m).2.2,
        ∃ tx ∈ txs, ∃ out, txin.prevout.hash = tx.txHash ∧
          tx.vout.get? txin.prevout.n = some out ∧
          ∃ token, buildTokenFromScript out.scriptPubKey = some token ∧
            token.name = tokenname) ∧
    (∀ txHash n out rest acc ret, buildTokenFromScript out.scriptPubKey = none →
        fundTokenOuts env tokenname m txHash ((n, out) :: rest) acc ret =
          fundTokenOuts env tokenname m txHash rest acc ret) := by
  constructor
  · intro txin hmem
    rw [fundTokenTransaction, fundTokenTxs_eq_greedy] at hmem
    rcases greedy_sel_mem m _ 0 [] txin hmem with hs | ⟨pv, hpv, rfl⟩
    · simp at hs
    · rcases List.mem_flatMap.mp hpv with ⟨tx, htx, hpv2⟩
      rcases List.mem_filterMap.mp hpv2 with ⟨p, hp, heq⟩
      by_cases helig : eligibleToken env tokenname tx.txHash p.1 p.2 = true
      · rw [if_pos helig] at heq
        cases hdec : buildTokenFromScript p.2.scriptPubKey with
        | none => simp [eligibleToken, hdec] at helig
        | some token =>
            have hname : token.name = tokenname := by
              simp [eligibleToken, hdec] at helig
              exact (helig.2).symm
            have hout : tx.vout.get? p.1 = some p.2 := by
              have := List.mem_enum_iff_get?.mp hp
              simpa using this
            refine ⟨tx, htx, p.2, ?_, ?_, token, hdec, hname⟩
            · cases heq; rfl
            · cases heq; simpa using hout
      · rw [if_neg helig] at heq
        cases heq
  · intro txHash n out rest acc ret hdec
    rw [fundTokenOuts_cons]
    simp [eligibleToken, hdec]

/-- A wallet environment for the token-funding witness: everything
eligible, 2 confirmations everywhere. -/
def envC : WalletEnv :=
  { isInMempool := fun _ => false
    isOutputUnspent := fun _ => true
    isMine := fun _ => true
    getUTXOConfirmations := fun _ => 2
    isOutputInMempool := fun _ => false }

/-- An output carrying the token tag but no decodable body. -/
def badOut : CTxOut := ⟨10, [209]⟩

/-- A wallet-owned GOLD output worth 100. -/
def gOut : CTxOut := ⟨100, gScript⟩

/-- A concrete wallet for the token-funding witness. -/
def txsB : List CWalletTx := [⟨2, [badOut, gOut]⟩]

theorem C6_witness :
    ((⟨⟨2, 1⟩⟩ : CTxIn) ∈ (fundTokenTransaction envC txsB goldName 50).2.2 ∧
      ∃ tx ∈ txsB, ∃ out, (⟨⟨2, 1⟩⟩ : CTxIn).prevout.hash = tx.txHash ∧
        tx.vout.get? (⟨⟨2, 1⟩⟩ : CTxIn).prevout.n = some out ∧
        ∃ token, buildTokenFromScript out.scriptPubKey = some token ∧
          token.name = goldName) ∧
    (buildTokenFromScript badOut.scriptPubKey = none ∧
      fundTokenOuts envC goldName 50 2 [(0, badOut), (1, gOut)] 0 [] =
        fundTokenOuts envC goldName 50 2 [(1, gOut)] 0 []) :=
  ⟨⟨by decide,
    (C6_fundTokenTransaction_name_match envC txsB goldName 50).1 ⟨⟨2, 1⟩⟩ (by decide)⟩,
   ⟨by decide,
    (C6_fundTokenTransaction_name_match envC txsB goldName 50).2 2 0 badOut
      [(1, gOut)] 0 [] (by decide)⟩⟩

/-- C8: `CToken::operator==` returns true iff both `uid` and `name` agree;
the `version` and `origintx` fields do not participate. -/
theorem C8_tokenEq_uid_name (a b : CToken) :
    (tokenEq a b = true ↔ a.uid = b.uid ∧ a.name = b.name) ∧
    (∀ v₂ o₂, tokenEq { a with version := v₂, origintx := o₂ } b = tokenEq a b) ∧
    (∀ v₂ o₂, tokenEq a { b with version := v₂, origintx := o₂ } = tokenEq a b) := by
  refine ⟨?_, fun v₂ o₂ => rfl, fun v₂ o₂ => rfl⟩
  simp [tokenEq]

/-- A mempool transaction, reduced to its outputs (the aggregation loop
reads nothing else). -/
structure MempoolTx where
  vout : List CTxOut
deriving DecidableEq, Repr

/-- Modelled from the spec: `CTransaction::HasTokenOutput` — some output is
a pay-to-token script. The implementation is not in the provided sources. -/
def hasTokenOutput (tx : MempoolTx) : Bool :=
  tx.vout.any fun o => isPayToToken o.scriptPubKey

/-- Modelled from the spec: `ContextualCheckToken` decodes the script and
validates the decoded fields against the structural invariants (name
length within `[TOKENNAME_MINLEN, TOKENNAME_MAXLEN]`, the reserved type
value `NONE` rejected). The implementation is not in the provided sources
(only declared in `verify.h`). -/
def contextualCheckToken (s : CScript) : Option CToken :=
  match buildTokenFromScript s with
  | none => none
  | some token =>
      if TOKENNAME_MINLEN ≤ token.name.length ∧ token.name.length ≤ TOKENNAME_MAXLEN ∧
          (token.type = CToken.ISSUANCE ∨ token.type = CToken.TRANSFER) then
        some token
      else none

/-- `balances[name] += value` on a `std::map` modelled as an association
list: update the entry in place if the key is present, append it
otherwise. (The sortedness of `std::map` iteration is not modelled; no
claim here depends on iteration order.) -/
def mapIncr (bal : List (List Nat × Int)) (name : List Nat) (value : Int) :
    List (List Nat × Int) :=
  if bal.any fun p => p.1 == name then
    bal.map fun p => if p.1 == name then (p.1, p.2 + value) else p
  else bal ++ [(name, value)]

/-- Inner per-output loop of `CWallet::GetUnconfirmedTokenBalance`
(`wallet.cpp` lines 190-203): flag `false` means the aggregation aborted
at a contextual-validation failure; the accompanying map is the balances
map as mutated so far. -/
def gutbOuts (isMine : CTxOut → Bool) :
    List CTxOut → List (List Nat × Int) → Bool × List (List Nat × Int)
  | [], bal => (true, bal)
  | out :: rest, bal =>
      if isPayToToken out.scriptPubKey && isMine out then
        match contextualCheckToken out.scriptPubKey with
        | none => (false, bal)
        | some token => gutbOuts isMine rest (mapIncr bal token.name out.nValue)
      else gutbOuts isMine rest bal

/-- Outer per-transaction loop of `CWallet::GetUnconfirmedTokenBalance`
(`wallet.cpp` lines 187-205). -/
def gutbTxs (isMine : CTxOut → Bool) :
    List MempoolTx → List (List Nat × Int) → Bool × List (List Nat × Int)
  | [], bal => (true, bal)
  | tx :: rest, bal =>
      if hasTokenOutput tx then
        match gutbOuts isMine tx.vout bal with
        | (false, bal2) => (false, bal2)
        | (true, bal2) => gutbTxs isMine rest bal2
      else gutbTxs isMine rest bal

/-- `CWallet::GetUnconfirmedTokenBalance` (`wallet.cpp` lines 182-208):
takes the caller's balances map and error string by reference; on failure
returns `false` with `strError = "corrupt-invalid-existing-mempool"` and
whatever the balances map holds at that point. -/
def getUnconfirmedTokenBalance (isMine : CTxOut → Bool) (pool : List MempoolTx)
    (balances : List (List Nat × Int)) (strError : String) :
    Bool × List (List Nat × Int) × String :=
  match gutbTxs isMine pool balances with
  | (false, bal) => (false, bal, "corrupt-invalid-existing-mempool")
  | (true, bal) => (true, bal, strError)

/-- The wallet-owned token outputs the aggregation loop actually
processes, in processing order. -/
def relevantOuts (isMine : CTxOut → Bool) (pool : List MempoolTx) : List CTxOut :=
  pool.flatMap fun tx =>
    if hasTokenOutput tx then
      tx.vout.filter fun o => isPayToToken o.scriptPubKey && isMine o
    else []

/-- Pure accumulation of per-name totals over a list of token outputs:
stops (discarding the rest) at the first output failing the contextual
check. -/
def accumBal (bal : List (List Nat × Int)) : List CTxOut → List (List Nat × Int)
  | [] => bal
  | out :: rest =>
      match contextualCheckToken out.scriptPubKey with
      | some token => accumBal (mapIncr bal token.name out.nValue) rest
      | none => bal

theorem accumBal_append_valid (l₂ : List CTxOut) :
    ∀ (l₁ : List CTxOut) (bal : List (List Nat × Int)),
      (∀ o ∈ l₁, (contextualCheckToken o.scriptPubKey).isSome) →
      accumBal bal (l₁ ++ l₂) = accumBal (accumBal bal l₁) l₂
  | [], bal, _ => by simp [accumBal]
  | out :: rest, bal, hval => by
      have hout : (contextualCheckToken out.scriptPubKey).isSome :=
        hval out (List.mem_cons_self _ _)
      cases hdec : contextualCheckToken out.scriptPubKey with
      | none => rw [hdec] at hout; simp at hout
      | some token =>
          simp only [List.cons_append, accumBal, hdec]
          exact accumBal_append_valid l₂ rest (mapIncr bal token.name out.nValue)
            (fun o ho => hval o (List.mem_cons_of_mem _ ho))

theorem accumBal_append_invalid (l₂ : List CTxOut) :
    ∀ (l₁ : List CTxOut) (bal : List (List Nat × Int)),
      (∃ bad ∈ l₁, contextualCheckToken bad.scriptPubKey = none) →
      accumBal bal (l₁ ++ l₂) = accumBal bal l₁
  | [], _, h => by simp at h
  | out :: rest, bal, h => by
      cases hdec : contextualCheckToken out.scriptPubKey with
      | none => simp [accumBal, hdec]
      | some token =>
          simp only [List.cons_append, accumBal, hdec]
          rcases h with ⟨bad, hbad, hbadnone⟩
          rcases List.mem_cons.mp hbad with rfl | hbad2
          · rw [hdec] at hbadnone; cases hbadnone
          · exact accumBal_append_invalid l₂ rest (mapIncr bal token.name out.nValue)
              ⟨bad, hbad2, hbadnone⟩

theorem gutbOuts_spec (isMine : CTxOut → Bool) :
    ∀ (outs : List CTxOut) (bal : List (List Nat × Int)),
      (gutbOuts isMine outs bal).2 =
        accumBal bal (outs.filter fun o => isPayToToken o.scriptPubKey && isMine o) ∧
      ((gutbOuts isMine outs bal).1 = true →
        ∀ o ∈ outs.filter (fun o => isPayToToken o.scriptPubKey && isMine o),
          (contextualCheckToken o.scriptPubKey).isSome) ∧
      ((gutbOuts isMine outs bal).1 = false →
        ∃ bad ∈ outs.filter (fun o => isPayToToken o.scriptPubKey && isMine o),
          contextualCheckToken bad.scriptPubKey = none)
  | [], bal => by simp [gutbOuts, accumBal]
  | out :: rest, bal => by
      by_cases hrel : (isPayToToken out.scriptPubKey && isMine out) = true
      · cases hdec : contextualCheckToken out.scriptPubKey with
        | none =>
            refine ⟨?_, ?_, ?_⟩
            · simp [gutbOuts, hrel, hdec, List.filter_cons, accumBal]
            · intro hok
              simp [gutbOuts, hrel, hdec] at hok
            · intro _
              exact ⟨out, by simp [List.filter_cons, hrel], hdec⟩
        | some token =>
            have ih := gutbOuts_spec isMine rest (mapIncr bal token.name out.nValue)
            refine ⟨?_, ?_, ?_⟩
            · simpa [gutbOuts, hrel, hdec, List.filter_cons, accumBal] using ih.1
            · intro hok o ho
              rw [List.filter_cons, if_pos hrel] at ho
              rcases List.mem_cons.mp ho with rfl | ho2
              · simp [hdec]
              · have hok2 : (gutbOuts isMine rest (mapIncr bal token.name out.nValue)).1 = true := by
                  simpa [gutbOuts, hrel, hdec] using hok
                exact ih.2.1 hok2 o ho2
            · intro hfail
              have hfail2 : (gutbOuts isMine rest (mapIncr bal token.name out.nValue)).1 = false := by
                simpa [gutbOuts, hrel, hdec] using hfail
              rcases ih.2.2 hfail2 with ⟨bad, hbad, hbadnone⟩
              exact ⟨bad, by rw [List.filter_cons, if_pos hrel]; exact List.mem_cons_of_mem _ hbad,
                hbadnone⟩
      · have ih := gutbOuts_spec isMine rest bal
        have hrel2 : (isPayToToken out.scriptPubKey && isMine out) = false := by
          simpa using hrel
        refine ⟨?_, ?_, ?_⟩
        · simpa [gutbOuts, hrel2, List.filter_cons] using ih.1
        · intro hok o ho
          rw [List.filter_cons, if_neg (by simp [hrel2])] at ho
          exact ih.2.1 (by simpa [gutbOuts, hrel2] using hok) o ho
        · intro hfail
          rcases ih.2.2 (by simpa [gutbOuts, hrel2] using hfail) with ⟨bad, hbad, hbadnone⟩
          exact ⟨bad, by rw [List.filter_cons, if_neg (by simp [hrel2])]; exact hbad, hbadnone⟩

theorem gutbTxs_spec (isMine : CTxOut → Bool) :
    ∀ (pool : List MempoolTx) (bal : List (List Nat × Int)),
      (gutbTxs isMine pool bal).2 = accumBal bal (relevantOuts isMine pool) ∧
      ((gutbTxs isMine pool bal).1 = false →
        ∃ bad ∈ relevantOuts isMine pool, contextualCheckToken bad.scriptPubKey = none)
  | [], bal => by simp [gutbTxs, relevantOuts, accumBal]
  | tx :: rest, bal => by
      by_cases htok : hasTokenOutput tx = true
      · have hrel : relevantOuts isMine (tx :: rest) =
            (tx.vout.filter fun o => isPayToToken o.scriptPubKey && isMine o) ++
              relevantOuts isMine rest := by
          simp [relevantOuts, htok]
        rcases hr1 : gutbOuts isMine tx.vout bal with ⟨b1, bal1⟩
        have hspec := gutbOuts_spec isMine tx.vout bal
        rw [hr1] at hspec
        cases b1 with
        | false =>
            have hres : gutbTxs isMine (tx :: rest) bal = (false, bal1) := by
              simp [gutbTxs, htok, hr1]
            refine ⟨?_, ?_⟩
            · rw [hres, hrel, accumBal_append_invalid _ _ _ (hspec.2.2 rfl)]
              exact hspec.1
            · intro _
              rcases hspec.2.2 rfl with ⟨bad, hb, hn⟩
              exact ⟨bad, by rw [hrel]; exact List.mem_append_left _ hb, hn⟩
        | true =>
            have hres : gutbTxs isMine (tx :: rest) bal = gutbTxs isMine rest bal1 := by
              simp [gutbTxs, htok, hr1]
            have ih := gutbTxs_spec isMine rest bal1
            refine ⟨?_, ?_⟩
            · rw [hres, hrel, accumBal_append_valid _ _ _ (hspec.2.1 rfl), ← hspec.1]
              exact ih.1
            · intro hf
              rcases ih.2 (by rw [hres] at hf; exact hf) with ⟨bad, hb, hn⟩
              exact ⟨bad, by rw [hrel]; exact List.mem_append_right _ hb, hn⟩
      · have htok2 : hasTokenOutput tx = false := by simpa using htok
        have hrel : relevantOuts isMine (tx :: rest) = relevantOuts isMine rest := by
          simp [relevantOuts, htok2]
        have hres : gutbTxs isMine (tx :: rest) bal = gutbTxs isMine rest bal := by
          simp [gutbTxs, htok2]
        have ih := gutbTxs_spec isMine rest bal
        exact ⟨by rw [hres, hrel]; exact ih.1,
          fun hf => by rw [hrel]; exact ih.2 (by rw [hres] at hf; exact hf)⟩

/-- The two-byte name "AB", shorter than `TOKENNAME_MINLEN`. -/
def badName : List Nat := [65, 66]

/-- A token script whose decoded name is too short, so it decodes but
fails the contextual check. -/
def badScript : CScript := buildTokenScript 1 CToken.TRANSFER 43 badName []

/-- A wallet-owned output carrying `badScript`. -/
def badTokOut : CTxOut := ⟨7, badScript⟩

/-- Everything is wallet-owned. -/
def isMineAll : CTxOut → Bool := fun _ => true

/-- A mempool holding a valid wallet-owned GOLD output worth 100 followed
by a context-invalid token output. -/
def pool1 : List MempoolTx := [⟨[⟨100, gScript⟩]⟩, ⟨[badTokOut]⟩]

/-- C1 counterexample: the aggregation fails on `pool1`, yet the balances
map (empty at entry) now holds the partial total accumulated before the
failing output — the map is not left unchanged. -/
theorem C1_counterexample_partial_total :
    (getUnconfirmedTokenBalance isMineAll pool1 [] "No error").1 = false ∧
    (getUnconfirmedTokenBalance isMineAll pool1 [] "No error").2.1 = [(goldName, 100)] ∧
    [(goldName, (100 : Int))] ≠ ([] : List (List Nat × Int)) := by decide

/-- C1 amended: when `GetUnconfirmedTokenBalance` fails, it reports
`"corrupt-invalid-existing-mempool"`, some processed wallet-owned token
output fails the contextual check, and the caller's balances map holds the
totals accumulated over the processed outputs up to the failing one (it is
not rolled back to its entry value). -/
theorem C1_failure_keeps_partial_balances (isMine : CTxOut → Bool) (pool : List MempoolTx)
    (bal₀ : List (List Nat × Int)) (err₀ : String)
    (hfail : (getUnconfirmedTokenBalance isMine pool bal₀ err₀).1 = false) :
    (getUnconfirmedTokenBalance isMine pool bal₀ err₀).2.2 =
      "corrupt-invalid-existing-mempool" ∧
    (∃ bad ∈ relevantOuts isMine pool,
      contextualCheckToken bad.scriptPubKey = none) ∧
    (getUnconfirmedTokenBalance isMine pool bal₀ err₀).2.1 =
      accumBal bal₀ (relevantOuts isMine pool) := by
  rcases hg : gutbTxs isMine pool bal₀ with ⟨b, bal⟩
  have hspec := gutbTxs_spec isMine pool bal₀
  rw [hg] at hspec
  cases b with
  | true => simp [getUnconfirmedTokenBalance, hg] at hfail
  | false =>
      refine ⟨?_, hspec.2 rfl, ?_⟩
      · simp [getUnconfirmedTokenBalance, hg]
      · simpa [getUnconfirmedTokenBalance, hg] using hspec.1

theorem C1_witness :
    (getUnconfirmedTokenBalance isMineAll pool1 [] "No error").1 = false ∧
    ((getUnconfirmedTokenBalance isMineAll pool1 [] "No error").2.2 =
        "corrupt-invalid-existing-mempool" ∧
      (∃ bad ∈ relevantOuts isMineAll pool1,
        contextualCheckToken bad.scriptPubKey = none) ∧
      (getUnconfirmedTokenBalance isMineAll pool1 [] "No error").2.1 =
        accumBal [] (relevantOuts isMineAll pool1)) :=
  ⟨by decide, C1_failure_keeps_partial_balances isMineAll pool1 [] "No error" (by decide)⟩

/-- An arbitrary backing owner script. -/
def ownerX : CScript := [5]

/-- An issuance output of GOLD worth 100 (not wallet-owned in the C5
scenario). -/
def issueOut : CTxOut := ⟨100, buildTokenScript 1 CToken.ISSUANCE 42 goldName ownerX⟩

/-- A transfer output of the same GOLD token worth 100 (wallet-owned). -/
def transferOut : CTxOut := ⟨100, buildTokenScript 1 CToken.TRANSFER 42 goldName ownerX⟩

/-- Ownership predicate of the C5 scenario: only the transfer output is
wallet-owned. -/
def isMineTransfer : CTxOut → Bool := fun o => decide (o = transferOut)

/-- The C5 mempool: the GOLD issuance followed by the wallet-owned GOLD
transfer. -/
def pool5 : List MempoolTx := [⟨[issueOut]⟩, ⟨[transferOut]⟩]

/-- C5: on a mempool with a GOLD issuance of value 100 followed by a
wallet-owned GOLD transfer of value 100, the unconfirmed balance is
`{"GOLD": 100}` — not 200. -/
theorem C5_unconfirmed_balance_gold :
    getUnconfirmedTokenBalance isMineTransfer pool5 [] "No error" =
      (true, [(goldName, 100)], "No error") ∧
    (getUnconfirmedTokenBalance isMineTransfer pool5 [] "No error").2.1 ≠
      [(goldName, 200)] := by decide

/-- A resolved coin from the chain-plus-mempool overlay view
(`Coin` with its spent flag); `AccessCoin` on a missing outpoint yields a
spent coin. -/
structure Coin where
  spent : Bool
  nValue : Int
  scriptPubKey : CScript
deriving DecidableEq, Repr

/-- External collaborators of `CWallet::SignTokenTransaction`: the
transient chain-plus-mempool coin view, and the external script engine.
`verify i coin` abstracts the outcome of `VerifyScript` on input `i` after
`SignSignature`/`ProduceSignature` ran (the signature production itself
only influences that outcome); `scriptErrString i` is the engine's error
string for input `i`. `nHashType` is the constant `SIGHASH_ALL` in the
source, so the `SIGHASH_SINGLE` guard never suppresses signing. -/
structure SignEnv where
  view : COutPoint → Coin
  verify : Nat → Coin → Bool
  scriptErrString : Nat → String

/-- Per-input loop of `CWallet::SignTokenTransaction` (`wallet.cpp` lines
151-177) over the indexed inputs: a spent (or missing) previous output
aborts with "Input not found or already spent"; a script-verification
failure aborts with the engine's error string; otherwise `strError` keeps
its initial "No error" and the function returns true. -/
def signLoop (env : SignEnv) : List (Nat × CTxIn) → Bool × String
  | [] => (true, "No error")
  | (i, txin) :: rest =>
      let coin := env.view txin.prevout
      if coin.spent then (false, "Input not found or already spent")
      else if !env.verify i coin then (false, env.scriptErrString i)
      else signLoop env rest

/-- `CWallet::SignTokenTransaction`, reduced to its result flag and error
string (the signature bytes live inside the abstracted engine). -/
def signTokenTransaction (env : SignEnv) (vin : List CTxIn) : Bool × String :=
  signLoop env vin.enum

theorem signLoop_spent_false (env : SignEnv) :
    ∀ (k : Nat) (vin : List CTxIn),
      (∃ txin ∈ vin, (env.view txin.prevout).spent = true) →
      (signLoop env (List.enumFrom k vin)).1 = false
  | _, [], h => by simp at h
  | k, txin :: rest, h => by
      by_cases hs : (env.view txin.prevout).spent = true
      · simp [List.enumFrom, signLoop, hs]
      · have hs2 : (env.view txin.prevout).spent = false := by simpa using hs
        rcases h with ⟨t, ht, htspent⟩
        rcases List.mem_cons.mp ht with rfl | ht2
        · rw [htspent] at hs2; cases hs2
        · by_cases hv : env.verify k (env.view txin.prevout) = true
          · have := signLoop_spent_false env (k + 1) rest ⟨t, ht2, htspent⟩
            simpa [List.enumFrom, signLoop, hs2, hv] using this
          · have hv2 : env.verify k (env.view txin.prevout) = false := by simpa using hv
            simp [List.enumFrom, signLoop, hs2, hv2]

theorem signLoop_spent_msg (env : SignEnv) :
    ∀ (k : Nat) (vin : List CTxIn) (i : Nat) (hi : i < vin.length),
      (env.view (vin.get ⟨i, hi⟩).prevout).spent = true →
      (∀ j (hj : j < vin.length), j < i →
        (env.view (vin.get ⟨j, hj⟩).prevout).spent = false ∧
        env.verify (k + j) (env.view (vin.get ⟨j, hj⟩).prevout) = true) →
      signLoop env (List.enumFrom k vin) = (false, "Input not found or already spent")
  | _, [], i, hi => by simp at hi
  | k, txin :: rest, 0, hi => by
      intro hspent _
      simp only [List.get] at hspent
      simp [List.enumFrom, signLoop, hspent]
  | k, txin :: rest, ii + 1, hi => by
      intro hspent hbefore
      have hhead := hbefore 0 (by simp) (Nat.succ_pos ii)
      simp only [List.get] at hhead
      have ih := signLoop_spent_msg env (k + 1) rest ii (Nat.lt_of_succ_lt_succ hi)
        (by simpa [List.get] using hspent)
        (fun j hj hji => by
          have := hbefore (j + 1) (Nat.succ_lt_succ hj) (Nat.succ_lt_succ hji)
          simpa [List.get, Nat.add_assoc, Nat.add_comm 1 j] using this)
      simpa [List.enumFrom, signLoop, hhead.1, by simpa using hhead.2] using ih

/-- C7: if some input's previous output is missing from the overlay view
or already spent, `SignTokenTransaction` does not report success; when the
signing loop reaches the first such input (every earlier input resolved
and verified), it returns failure with exactly the error message
"Input not found or already spent". The embedding is a total function, so
no fatal error can be raised for such input. -/
theorem C7_sign_spent_input (env : SignEnv) (vin : List CTxIn) :
    ((∃ txin ∈ vin, (env.view txin.prevout).spent = true) →
      (signTokenTransaction env vin).1 = false) ∧
    (∀ i (hi : i < vin.length),
      (env.view (vin.get ⟨i, hi⟩).prevout).spent = true →
      (∀ j (hj : j < vin.length), j < i →
        (env.view (vin.get ⟨j, hj⟩).prevout).spent = false ∧
        env.verify j (env.view (vin.get ⟨j, hj⟩).prevout) = true) →
      signTokenTransaction env vin = (false, "Input not found or already spent")) := by
  constructor
  · intro h
    exact signLoop_spent_false env 0 vin h
  · intro i hi hspent hbefore
    exact signLoop_spent_msg env 0 vin i hi hspent
      (fun j hj hji => by simpa using hbefore j hj hji)

/-- A concrete signing environment for the witness: the coin at outpoint
(9,1) is spent, the one at (9,0) is unspent; verification always
succeeds. -/
def envW : SignEnv :=
  { view := fun p => if p.n = 1 then ⟨true, 0, []⟩ else ⟨false, 50, []⟩
    verify := fun _ _ => true
    scriptErrString := fun _ => "script error" }

/-- The inputs of the witness transaction: input 0 resolves, input 1 is
spent. -/
def vinW : List CTxIn := [⟨⟨9, 0⟩⟩, ⟨⟨9, 1⟩⟩]

theorem C7_witness :
    (signTokenTransaction envW vinW).1 = false ∧
    signTokenTransaction envW vinW = (false, "Input not found or already spent") :=
  ⟨(C7_sign_spent_input envW vinW).1 ⟨⟨⟨9, 1⟩⟩, by decide, by decide⟩,
   (C7_sign_spent_input envW vinW).2 1 (by decide) (by decide)
     (fun j hj hji => by
       have hj0 : j = 0 := by omega
       subst hj0
       exact ⟨rfl, rfl⟩)⟩

/-- A node-history record from `storage/behavior.h` (ip address as a
32-bit value, storage space, signed health score). -/
structure NodeHistory where
  ipaddr : Nat
  space : Nat
  health : Int
deriving DecidableEq, Repr

/-- A storage node entry of a network proof as consumed by `AddProof`. -/
structure StorageNode where
  ip : Nat
  space : Nat
  mode : Int
  stat : Int
  reg : Int
deriving DecidableEq, Repr

/-- `CNodeBehavior::HaveNode` (`behavior.cpp` lines 57-64). -/
def haveNode (ip : Nat) (nodes : List NodeHistory) : Bool :=
  nodes.any fun l => l.ipaddr == ip

/-- `CNodeBehavior::ReturnNode` (`behavior.cpp` lines 66-75): first node
with a matching ip, else a blank record ("shouldnt hit here"; the C++
local is uninitialized — the blank is reachable only off the
`HaveNode`-guarded path). -/
def returnNode (ip : Nat) (nodes : List NodeHistory) : NodeHistory :=
  match nodes.find? fun l => l.ipaddr == ip with
  | some l => l
  | none => ⟨0, 0, 0⟩

/-- `CNodeBehavior::AddNode` (`behavior.cpp` lines 88-91). -/
def addNode (inp : NodeHistory) (nodes : List NodeHistory) : List NodeHistory :=
  nodes ++ [inp]

/-- `CNodeBehavior::ReplaceNode` (`behavior.cpp` lines 77-86). The loop
condition `if (l.ipaddr = in.ipaddr)` is an assignment, not a comparison:
it overwrites the visited node's `ipaddr` with `in.ipaddr` and then tests
the assigned value for truthiness. Hence for nonzero `in.ipaddr` the first
node of the list is replaced by `in` and the function returns true; for
`in.ipaddr = 0` every node's `ipaddr` is zeroed and it returns false. -/
def replaceNode (inp : NodeHistory) : List NodeHistory → Bool × List NodeHistory
  | [] => (false, [])
  | l :: rest =>
      if inp.ipaddr ≠ 0 then (true, inp :: rest)
      else
        let r := replaceNode inp rest
        (r.1, { l with ipaddr := 0 } :: r.2)

/-- `CNodeBehavior::HaveSeen` (`behavior.cpp` lines 48-55). -/
def haveSeen (height : Int) (seen : List Int) : Bool :=
  seen.any fun l => l == height

/-- First loop of `CNodeBehavior::AddProof` (`behavior.cpp` lines
107-129): register unknown nodes at health 100, then raise the matched
node's health (clamped above at 100) and store it back via
`ReplaceNode`, collecting the ips seen in this proof. -/
def addProofNodes (inc : Int) :
    List StorageNode → List NodeHistory → List Nat → List NodeHistory × List Nat
  | [], nodes, seenNodes => (nodes, seenNodes)
  | sn :: rest, nodes, seenNodes =>
      let nodes1 := if haveNode sn.ip nodes then nodes else addNode ⟨sn.ip, sn.space, 100⟩ nodes
      if haveNode sn.ip nodes1 then
        let in2 := returnNode sn.ip nodes1
        let seenNodes2 := seenNodes ++ [sn.ip]
        let h1 := if sn.mode > 0 ∧ sn.stat > 0 ∧ sn.reg > 0 then in2.health + inc else in2.health
        let h2 := if h1 > 100 then 100 else h1
        let nodes2 := (replaceNode { in2 with health := h2 } nodes1).2
        addProofNodes inc rest nodes2 seenNodes2
      else
        addProofNodes inc rest nodes1 seenNodes

/-- Second loop of `CNodeBehavior::AddProof` (`behavior.cpp` lines
131-142): nodes not seen in this proof lose `dec` health, clamped below
at 0. -/
def addProofDecay (dec : Int) (seenNodes : List Nat) (nodes : List NodeHistory) :
    List NodeHistory :=
  nodes.map fun l =>
    if seenNodes.contains l.ipaddr then l
    else { l with health := if l.health - dec < 0 then 0 else l.health - dec }

/-- `CNodeBehavior::AddProof` (`behavior.cpp` lines 93-143), with the
score constants `SCORE_INCREASE`/`SCORE_DECREASE` (defined outside the
provided sources) as parameters; returns the updated node list. -/
def addProof (inc dec : Int) (height : Int) (proofNodes : List StorageNode)
    (nodes : List NodeHistory) (seen : List Int) : List NodeHistory :=
  if haveSeen height seen then nodes
  else
    let r := addProofNodes inc proofNodes nodes []
    addProofDecay dec r.2 r.1

/-- C9 evidence: `ReplaceNode` with input ip 2 on the list
`[{ip 1, health 50}, {ip 2, health 60}]` replaces the FIRST node (ip 1)
and keeps the stale ip-2 record, instead of replacing exactly the node
whose ip matches; and with input ip 0 it returns false but zeroes every
stored node's ip rather than leaving the list unchanged. -/
theorem C9_replaceNode_assignment_bug :
    replaceNode ⟨2, 0, 70⟩ [⟨1, 0, 50⟩, ⟨2, 0, 60⟩] = (true, [⟨2, 0, 70⟩, ⟨2, 0, 60⟩]) ∧
    replaceNode ⟨2, 0, 70⟩ [⟨1, 0, 50⟩, ⟨2, 0, 60⟩] ≠ (true, [⟨1, 0, 50⟩, ⟨2, 0, 70⟩]) ∧
    replaceNode ⟨0, 0, 70⟩ [⟨1, 0, 50⟩] = (false, [⟨0, 0, 50⟩]) ∧
    (replaceNode ⟨0, 0, 70⟩ [⟨1, 0, 50⟩]).2 ≠ [⟨1, 0, 50⟩] := by decide

theorem replaceNode_health_mem (inp : NodeHistory) :
    ∀ (nodes : List NodeHistory) (l : NodeHistory), l ∈ (replaceNode inp nodes).2 →
      l.health = inp.health ∨ ∃ l₀ ∈ nodes, l.health = l₀.health
  | [], l => by simp [replaceNode]
  | hd :: rest, l => by
      intro hmem
      by_cases hz : inp.ipaddr ≠ 0
      · simp only [replaceNode, if_pos hz] at hmem
        rcases List.mem_cons.mp hmem with rfl | h2
        · exact Or.inl rfl
        · exact Or.inr ⟨l, List.mem_cons_of_mem _ h2, rfl⟩
      · simp only [replaceNode, if_neg hz] at hmem
        rcases List.mem_cons.mp hmem with rfl | h2
        · exact Or.inr ⟨hd, List.mem_cons_self _ _, rfl⟩
        · rcases replaceNode_health_mem inp rest l h2 with h | ⟨l₀, hl₀, he⟩
          · exact Or.inl h
          · exact Or.inr ⟨l₀, List.mem_cons_of_mem _ hl₀, he⟩

theorem returnNode_health_bounds (ip : Nat) (nodes : List NodeHistory)
    (hinv : ∀ l ∈ nodes, 0 ≤ l.health ∧ l.health ≤ 100) :
    0 ≤ (returnNode ip nodes).health ∧ (returnNode ip nodes).health ≤ 100 := by
  rw [returnNode]
  cases hf : nodes.find? fun l => l.ipaddr == ip with
  | none => norm_num
  | some l => exact hinv l (List.mem_of_find?_eq_some hf)

theorem addProofNodes_health_bounds (inc : Int) (hinc : 0 ≤ inc) :
    ∀ (proofNodes : List StorageNode) (nodes : List NodeHistory) (seenNodes : List Nat),
      (∀ l ∈ nodes, 0 ≤ l.health ∧ l.health ≤ 100) →
      ∀ l ∈ (addProofNodes inc proofNodes nodes seenNodes).1,
        0 ≤ l.health ∧ l.health ≤ 100
  | [], nodes, seenNodes => by
      intro hinv l hl
      exact hinv l hl
  | sn :: rest, nodes, seenNodes => by
      intro hinv
      set nodes1 := if haveNode sn.ip nodes then nodes
        else addNode ⟨sn.ip, sn.space, 100⟩ nodes with hnodes1
      have hinv1 : ∀ l ∈ nodes1, 0 ≤ l.health ∧ l.health ≤ 100 := by
        rw [hnodes1]
        split
        · exact hinv
        · intro l hl
          rcases List.mem_append.mp hl with h | h
          · exact hinv l h
          · rcases List.mem_singleton.mp h with rfl
            norm_num
      by_cases hhave : haveNode sn.ip nodes1 = true
      · have hret := returnNode_health_bounds sn.ip nodes1 hinv1
        set in2 := returnNode sn.ip nodes1 with hin2
        set h1 := if sn.mode > 0 ∧ sn.stat > 0 ∧ sn.reg > 0 then in2.health + inc
          else in2.health with hh1
        set h2 := if h1 > 100 then 100 else h1 with hh2
        have hh1b : 0 ≤ h1 := by
          rw [hh1]; split <;> [linarith [hret.1]; exact hret.1]
        have hh2b : 0 ≤ h2 ∧ h2 ≤ 100 := by
          rw [hh2]; split
          · norm_num
          · constructor
            · exact hh1b
            · linarith [not_lt.mp (by assumption)]
        have hinv2 : ∀ l ∈ (replaceNode { in2 with health := h2 } nodes1).2,
            0 ≤ l.health ∧ l.health ≤ 100 := by
          intro l hl
          rcases replaceNode_health_mem _ nodes1 l hl with he | ⟨l₀, hl₀, he⟩
          · rw [he]; exact hh2b
          · rw [he]; exact hinv1 l₀ hl₀
        intro l hl
        refine addProofNodes_health_bounds inc hinc rest
          (replaceNode { in2 with health := h2 } nodes1).2 (seenNodes ++ [sn.ip])
          hinv2 l ?_
        simpa [addProofNodes, hhave, hnodes1, hin2, hh1, hh2] using hl
      · intro l hl
        refine addProofNodes_health_bounds inc hinc rest nodes1 seenNodes hinv1 l ?_
        simpa [addProofNodes, hhave, hnodes1] using hl

/-- C10: from any state in which every stored node's health lies in
[0, 100], `AddProof` preserves that bound for every stored node, for any
nonnegative score constants: a new node starts at 100, an increase is
clamped above at 100 before being stored, and the decay of unseen nodes
is clamped below at 0. -/
theorem C10_addProof_health_bounds (inc dec height : Int)
    (proofNodes : List StorageNode) (nodes : List NodeHistory) (seen : List Int)
    (hinc : 0 ≤ inc) (hdec : 0 ≤ dec)
    (hinv : ∀ l ∈ nodes, 0 ≤ l.health ∧ l.health ≤ 100) :
    ∀ l ∈ addProof inc dec height proofNodes nodes seen,
      0 ≤ l.health ∧ l.health ≤ 100 := by
  intro l hl
  rw [addProof] at hl
  by_cases hseen : haveSeen height seen = true
  · rw [if_pos hseen] at hl
    exact hinv l hl
  · rw [if_neg hseen] at hl
    have hmid := addProofNodes_health_bounds inc hinc proofNodes nodes [] hinv
    rcases List.mem_map.mp hl with ⟨l₀, hl₀, rfl⟩
    have hb := hmid l₀ hl₀
    split
    · exact hb
    · constructor
      · simp only []
        split <;> [norm_num; linarith [not_lt.mp (by assumption)]]
      · simp only []
        split <;> [norm_num; linarith [hb.2, hdec]]

theorem C10_witness :
    (0 : Int) ≤ 10 ∧ (0 : Int) ≤ 5 ∧
    (∀ l ∈ [(⟨7, 1, 95⟩ : NodeHistory), ⟨8, 1, 2⟩], 0 ≤ l.health ∧ l.health ≤ 100) ∧
    ∀ l ∈ addProof 10 5 3 [⟨7, 1, 1, 1, 1⟩] [⟨7, 1, 95⟩, ⟨8, 1, 2⟩] [],
      0 ≤ l.health ∧ l.health ≤ 100 :=
  ⟨by decide, by decide, by decide,
   C10_addProof_health_bounds 10 5 3 [⟨7, 1, 1, 1, 1⟩] [⟨7, 1, 95⟩, ⟨8, 1, 2⟩] []
     (by decide) (by decide) (by decide)⟩

/-- C4: for every token record with version, type, uid within their
machine ranges and name length within
`[TOKENNAME_MINLEN, TOKENNAME_MAXLEN]`, decoding the script produced by
`BuildTokenScript` returns exactly the encoded fields (decode is a left
inverse of encode on valid records). -/
theorem C4_decode_encode_roundtrip (version type uid : Nat) (name : List Nat)
    (owner : CScript) (hv : version < 256) (ht : type < 65536) (hu : uid < 2 ^ 64)
    (hmin : TOKENNAME_MINLEN ≤ name.length) (hmax : name.length ≤ TOKENNAME_MAXLEN) :
    decodeTokenScript (buildTokenScript version type uid name owner) =
      some (version, type, uid, name, owner) :=
  decode_buildTokenScript version type uid name owner hv ht hu hmin hmax

theorem C4_witness :
    ((1 : Nat) < 256 ∧ (1 : Nat) < 65536 ∧ (42 : Nat) < 2 ^ 64 ∧
      TOKENNAME_MINLEN ≤ goldName.length ∧ goldName.length ≤ TOKENNAME_MAXLEN) ∧
    decodeTokenScript (buildTokenScript 1 1 42 goldName ownerX) =
      some (1, 1, 42, goldName, ownerX) :=
  ⟨⟨by decide, by decide, by decide, by decide, by decide⟩,
   C4_decode_encode_roundtrip 1 1 42 goldName ownerX (by decide) (by decide) (by decide)
     (by decide) (by decide)⟩

end Datos
